import Mathlib

/-
  Verification of the Safebooru chatbot plugin (src/plugin.py).

  The embedding models Python strings as `List Char`.  Remote HTTP traffic is
  modelled by oracles: `Server` maps a tag to the outcome of the exact-name
  lookup and of the fuzzy lookup, `SearchResp` is the outcome of one image
  search request.  Every function below is translated from the corresponding
  lines of src/plugin.py; modelling decisions that abstract Python/Unicode
  behaviour are recorded in the doc comments.
-/

set_option maxRecDepth 8192

namespace Safebooru

/-- Python strings are modelled as lists of characters. -/
abbrev Txt := List Char

/-- ASCII whitespace as recognised by Python str.split, str.strip and the
regular-expression class \s.  (After the plugin's ASCII filter only these
whitespace characters can occur, so the ASCII subset is faithful.) -/
def isPyWs (c : Char) : Bool :=
  c.toNat = 32 || c.toNat = 9 || c.toNat = 10 || c.toNat = 13 ||
  c.toNat = 11 || c.toNat = 12

/-- Characters matched by the regular-expression class [a-zA-Z0-9_]
(plugin.py line 171). -/
def isAsciiWord (c : Char) : Bool :=
  (65 ≤ c.toNat && c.toNat ≤ 90) || (97 ≤ c.toNat && c.toNat ≤ 122) ||
  (48 ≤ c.toNat && c.toNat ≤ 57) || c.toNat = 95

/-- CJK unified ideographs.  Python's Unicode-aware \b treats them as word
characters; they are the only non-ASCII word characters this plugin handles
(all tag-mapping keys are made of them), so other non-ASCII characters are
modelled as non-word. -/
def isCjk (c : Char) : Bool := 19968 ≤ c.toNat && c.toNat ≤ 40959

/-- Word characters for Python's \b boundaries, restricted to the plugin's
character repertoire. -/
def isPyWord (c : Char) : Bool := isAsciiWord c || isCjk c

/-- Lowercase ASCII letters, digits and underscore: the characters that can
survive a round trip through tokenisation untouched. -/
def isTame (c : Char) : Bool :=
  (97 ≤ c.toNat && c.toNat ≤ 122) || (48 ≤ c.toNat && c.toNat ≤ 57) ||
  c.toNat = 95

/-- Python str.lower, modelled characterwise (identity beyond ASCII; all
characters the plugin compares case-insensitively are ASCII or CJK). -/
def lowerT (l : Txt) : Txt := l.map Char.toLower

/-- Boolean list membership (Python `in` for sets/lists of strings). -/
def memB (x : Txt) (l : List Txt) : Bool := l.any (fun y => decide (y = x))

/-- Concatenation of the images of a list under a list-valued function. -/
def concatMap (f : α → List β) : List α → List β
  | [] => []
  | a :: as => f a ++ concatMap f as

/-- Boolean test that `n` occurs at the start of `h`. -/
def liPre : Txt → Txt → Bool
  | [], _ => true
  | _ :: _, [] => false
  | a :: as, b :: bs => decide (a = b) && liPre as bs

/-- Boolean substring test: Python `needle in haystack` for strings. -/
def liSub (n h : Txt) : Bool := h.tails.any (fun suf => liPre n suf)

/-- Contiguous-substring relation on lists (specification counterpart of
`liSub`). -/
def SubSeg (n h : Txt) : Prop := ∃ u v, h = u ++ n ++ v

/-- Accumulator pass computing the maximal runs of characters satisfying `p`;
`cur` holds the (reversed) run being built. -/
def runsGo (p : Char → Bool) : Txt → Txt → List Txt
  | cur, [] => if cur = [] then [] else [cur.reverse]
  | cur, c :: cs =>
    if p c then runsGo p (c :: cur) cs
    else if cur = [] then runsGo p [] cs
    else cur.reverse :: runsGo p [] cs

/-- Maximal runs of characters satisfying `p`. -/
def runsP (p : Char → Bool) (l : Txt) : List Txt := runsGo p [] l

/-- Python re.findall(r'\b[a-zA-Z0-9_]+\b', t): a maximal run of word
characters matches exactly when it consists entirely of ASCII word characters
(a run containing a CJK character has no \b boundary inside it). -/
def pyFindall (t : Txt) : List Txt :=
  (runsP isPyWord t).filter (fun w => w.all isAsciiWord)

/-- Python str.split() with no argument: maximal runs of non-whitespace. -/
def pySplitWs (l : Txt) : List Txt := runsP (fun c => !isPyWs c) l

/-- Python ' '.join. -/
def joinSp : List Txt → Txt
  | [] => []
  | [t] => t
  | t :: u :: ts => t ++ ' ' :: joinSp (u :: ts)

/-- Python str.isdigit (ASCII digits; the tested tokens are ASCII). -/
def pyIsDigit (w : Txt) : Bool := !w.isEmpty && w.all Char.isDigit

/-- Stop words dropped by extract_tags (plugin.py line 172). -/
def STOP_WORDS : List String :=
  ["a", "an", "the", "and", "or", "but", "in", "on", "at", "to", "for",
   "of", "with", "by", "image", "picture", "photo", "search"]

/-- Stop words as character lists. -/
def stopL : List Txt := STOP_WORDS.map String.data

/-- The Chinese-phrase to English-tag table TAG_MAPPINGS
(plugin.py lines 48-153), in source order. -/
def TAG_MAPPINGS : List (String × String) :=
  [("猫", "cat"), ("狗", "dog"), ("兔子", "rabbit"), ("狐狸", "fox"),
   ("狼", "wolf"), ("龙", "dragon"), ("天使", "angel"), ("恶魔", "demon"),
   ("魔法", "magic"), ("学校", "school"), ("泳装", "swimsuit"),
   ("和服", "kimono"), ("猫耳", "cat_ears"), ("尾巴", "tail"),
   ("可爱", "cute"), ("美少女", "beautiful_girl"), ("少年", "boy"),
   ("少女", "girl"), ("风景", "landscape"), ("夜景", "night"),
   ("樱花", "sakura cherry_blossom"), ("雨", "rain"), ("雪", "snow"),
   ("初音", "hatsune_miku"), ("未来", "hatsune_miku"), ("miku", "hatsune_miku"),
   ("天依", "luo_tianyi"), ("洛天依", "luo_tianyi"), ("言和", "yan_he"),
   ("乐正绫", "yuezheng_ling"), ("重音", "kasane_teto"), ("teto", "kasane_teto"),
   ("灵梦", "hakurei_reimu"), ("魔理沙", "kirisame_marisa"),
   ("春日步", "kasuga_ayumu"), ("大阪", "kasuga_ayumu"),
   ("芙兰", "flandre_scarlet"), ("蕾米", "remilia_scarlet"),
   ("爱蜜莉雅", "emilia_(re:zero)"), ("雷姆", "rem_(re:zero)"),
   ("拉姆", "ram_(re:zero)"), ("胡桃", "hu_tao_(genshin_impact)"),
   ("刻晴", "keqing_(genshin_impact)"), ("甘雨", "ganyu_(genshin_impact)"),
   ("纳西妲", "nahida_(genshin_impact)"),
   ("雷电将军", "raiden_shogun_(genshin_impact)"),
   ("一起", "multiple_girls"), ("合照", "multiple_girls"),
   ("白发", "white_hair"), ("黑发", "black_hair"), ("金发", "blonde_hair"),
   ("蓝发", "blue_hair"), ("红发", "red_hair"), ("绿发", "green_hair"),
   ("粉发", "pink_hair"), ("单人", "solo"), ("独照", "solo"),
   ("高清", "highres"), ("壁纸", "wallpaper"), ("大图", "highres"),
   ("萝莉", "loli"), ("御姐", "onee-san"), ("女仆", "maid"),
   ("护士", "nurse"), ("警察", "police"), ("医生", "doctor"),
   ("老师", "teacher"), ("学生", "student"), ("制服", "uniform"),
   ("水手服", "sailor_uniform"), ("运动服", "gym_uniform"),
   ("死库水", "school_swimsuit"), ("旗袍", "cheongsam"), ("哥特", "gothic"),
   ("洛丽塔", "lolita"), ("森林", "forest"), ("大海", "sea"),
   ("沙滩", "beach"), ("天空", "sky"), ("云", "clouds"), ("夕阳", "sunset"),
   ("星星", "stars"), ("月亮", "moon"), ("花", "flower"), ("城市", "city"),
   ("街道", "street"), ("室内", "indoor"), ("室外", "outdoor"),
   ("特写", "close-up"), ("全身", "full_body"), ("侧面", "profile"),
   ("背面", "back"), ("坐", "sitting"), ("站", "standing"), ("躺", "lying"),
   ("笑", "smile"), ("哭", "crying"), ("害羞", "blush"), ("生气", "angry"),
   ("睡觉", "sleeping"), ("吃", "eating"), ("喝", "drinking"),
   ("玩", "playing"), ("看", "looking_at_viewer")]

/-- The mapping table as character lists. -/
def tagMapL : List (Txt × Txt) :=
  TAG_MAPPINGS.map (fun p => (String.data p.1, String.data p.2))

/-- Filter applied to extracted English words (plugin.py line 175):
not a stop word, not all digits, longer than 2 characters. -/
def keepWord (w : Txt) : Bool :=
  !memB w stopL && !pyIsDigit w && decide (2 < w.length)

/-- The set of tags produced by SafebooruAPI.extract_tags (plugin.py lines
155-178), as a list of its elements: mapped tags for every table key occurring
in the lowercased text, plus the filtered ASCII word tokens.  The Python
function stores them in an unordered set, so only the underlying set
(`extractSet`) is meaningful. -/
def extractList (text : Txt) : List Txt :=
  if text.isEmpty then []
  else
    concatMap
      (fun kv => if liSub kv.1 (lowerT text) then pySplitWs kv.2 else [])
      tagMapL
      ++ (pyFindall (lowerT text)).filter keepWord

/-- The set of tags produced by extract_tags. -/
def extractSet (text : Txt) : Finset Txt := (extractList text).toFinset

/-- One entry of a tag-index JSON response; the API always carries a name
field (the code reads it with c.get('name', '') or c['name']). -/
structure TagInfo where
  name : Txt
deriving DecidableEq, Repr

/-- Outcome of one HTTP lookup in validate_tags: `raise` models an exception
while issuing the request, `resp status json` a completed response whose body
parses to `json` (`none` models a json() decode failure, which raises when the
body is read; it is only read when status = 200).  Python may return a dict
instead of a list; the code wraps a dict into a one-element list, so the list
model is faithful. -/
inductive Lookup where
  | raise : Lookup
  | resp (status : Nat) (json : Option (List TagInfo)) : Lookup

/-- The remote tag-index API, as an oracle keyed by the queried tag. -/
structure Server where
  exact : Txt → Lookup
  fuzzy : Txt → Lookup

/-- Remote requests issued by validate_tags. -/
inductive Req where
  | exact (tag : Txt) : Req
  | fuzzy (tag : Txt) : Req
deriving DecidableEq, Repr

/-- The tag a request is about. -/
def reqTag : Req → Txt
  | .exact t => t
  | .fuzzy t => t

/-- The high-confidence allow-list FAST_PATH_TAGS (plugin.py lines 40-45). -/
def FAST_PATH_TAGS : List String :=
  ["shirakami_fubuki", "houshou_marine", "minato_aqua", "usada_pekora",
   "hatsune_miku", "megurine_luka", "kagamine_rin", "kagamine_len",
   "hu_tao_(genshin_impact)", "raiden_shogun_(genshin_impact)",
   "ganyu_(genshin_impact)", "keqing_(genshin_impact)"]

/-- The allow-list as character lists. -/
def fastL : List Txt := FAST_PATH_TAGS.map String.data

/-- The weak-semantics set (plugin.py line 194). -/
def WEAK_SEMANTICS : List String :=
  ["girl", "boy", "anime", "solo", "highres", "wallpaper", "cute"]

/-- The weak-semantics set as character lists. -/
def weakL : List Txt := WEAK_SEMANTICS.map String.data

/-- ASCII filter on fuzzy candidates (plugin.py line 222): every character of
the candidate name is below 128. -/
def asciiName (c : TagInfo) : Bool := c.name.all (fun ch => ch.toNat < 128)

/-- Result of processing one non-fast-path tag in the validate_tags loop
(plugin.py lines 206-233): tags appended to validated_tags, entries written to
ambiguous_entities, requests issued, and whether the per-tag exception handler
fired (which logs the error and keeps the original tag). -/
structure SlowOut where
  validated : List Txt
  ambiguous : List (Txt × List TagInfo)
  reqs : List Req
  logged : Bool
deriving DecidableEq, Repr

/-- The body of the validate_tags loop for a tag that is not on the fast-path
allow-list (plugin.py lines 206-233), translated branch by branch. -/
def processSlow (srv : Server) (tag : Txt) : SlowOut :=
  match srv.exact tag with
  | .raise => ⟨[tag], [], [Req.exact tag], true⟩
  | .resp st j =>
    if st = 200 then
      match j with
      | none => ⟨[tag], [], [Req.exact tag], true⟩
      | some data =>
        match data with
        | d :: _ => ⟨[d.name], [], [Req.exact tag], false⟩
        | [] =>
          match srv.fuzzy tag with
          | .raise => ⟨[tag], [], [Req.exact tag, Req.fuzzy tag], true⟩
          | .resp fst fj =>
            if fst = 200 then
              match fj with
              | none => ⟨[tag], [], [Req.exact tag, Req.fuzzy tag], true⟩
              | some fdata =>
                match fdata with
                | [] => ⟨[], [], [Req.exact tag, Req.fuzzy tag], false⟩
                | _ :: _ =>
                  match fdata.filter asciiName with
                  | [] => ⟨[], [], [Req.exact tag, Req.fuzzy tag], false⟩
                  | [c] =>
                    ⟨[c.name], [], [Req.exact tag, Req.fuzzy tag], false⟩
                  | c1 :: c2 :: cs =>
                    ⟨[], [(tag, ((c1 :: c2 :: cs).take 5))],
                      [Req.exact tag, Req.fuzzy tag], false⟩
            else ⟨[], [], [Req.exact tag, Req.fuzzy tag], false⟩
    else ⟨[], [], [Req.exact tag], false⟩

/-- Accumulator of the validate_tags loop. -/
structure Acc where
  validated : List Txt
  ambiguous : List (Txt × List TagInfo)
  reqs : List Req
  fast : Bool
deriving DecidableEq, Repr

/-- One full iteration of the validate_tags loop (plugin.py lines 200-233):
a fast-path tag is appended without any request and leaves fast_path alone,
any other tag clears fast_path and runs the lookup logic. -/
def processTag (srv : Server) (tag : Txt) : Acc :=
  if memB (lowerT tag) fastL then ⟨[tag], [], [], true⟩
  else
    let o := processSlow srv tag
    ⟨o.validated, o.ambiguous, o.reqs, false⟩

/-- Python dict assignment d[k] = v on an association list (overwrite in
place, else append). -/
def updAssoc (m : List (Txt × List TagInfo)) (k : Txt) (v : List TagInfo) :
    List (Txt × List TagInfo) :=
  match m with
  | [] => [(k, v)]
  | (k2, v2) :: rest =>
    if k2 = k then (k2, v) :: rest else (k2, v2) :: updAssoc rest k v

/-- Python dict lookup on an association list. -/
def lookupA (m : List (Txt × List TagInfo)) (k : Txt) :
    Option (List TagInfo) :=
  match m with
  | [] => none
  | (k2, v2) :: rest => if k2 = k then some v2 else lookupA rest k

/-- Folding one loop iteration into the accumulated results. -/
def stepAcc (srv : Server) (a : Acc) (t : Txt) : Acc :=
  let d := processTag srv t
  ⟨a.validated ++ d.validated,
   d.ambiguous.foldl (fun m kv => updAssoc m kv.1 kv.2) a.ambiguous,
   a.reqs ++ d.reqs,
   a.fast && d.fast⟩

/-- The dictionary returned by SafebooruAPI.validate_tags
(plugin.py lines 181-235). -/
structure VBSResult where
  validated : List Txt
  ambiguous : List (Txt × List TagInfo)
  low_entropy : Bool
  fast_path : Bool
deriving DecidableEq, Repr

/-- SafebooruAPI.validate_tags (plugin.py lines 181-235) over a server
oracle, also returning the list of remote requests it issued.  low_entropy is
set when every token is in the weak-semantics set (vacuously for an empty
token list); fast_path starts true, is cleared by the weak-semantics branch
and by every tag that misses the allow-list. -/
def validateTags (srv : Server) (s : Txt) : VBSResult × List Req :=
  let tags := pySplitWs s
  let low := tags.all (fun t => memB (lowerT t) weakL)
  let a := tags.foldl (stepAcc srv) ⟨[], [], [], !low⟩
  (⟨a.validated, a.ambiguous, low, a.fast⟩, a.reqs)

/-- An image record returned by the search endpoint.  Its fields are opaque
to the claims under verification, so only an identifier is carried. -/
structure ImageRec where
  id : Nat
deriving DecidableEq, Repr

/-- Errors raised inside the search_images try block: asyncio timeout,
aiohttp client error, or any other exception. -/
inductive SearchErr where
  | timeout : SearchErr
  | client : SearchErr
  | other : SearchErr
deriving DecidableEq, Repr

/-- Outcome of the single search HTTP request: an exception while requesting,
or a completed response with a status, a JSON parse outcome (`none` models a
decode failure) and the raw body text. -/
inductive SearchResp where
  | timeoutErr : SearchResp
  | clientErr : SearchResp
  | otherErr : SearchResp
  | http (status : Nat) (json : Option (List ImageRec)) (text : Txt) :
      SearchResp
deriving DecidableEq, Repr

/-- The try-block of SafebooruAPI.search_images (plugin.py lines 251-300):
returns the parsed image list on a 200 response with non-empty data, an empty
list on non-200, decode failure or empty data, and raises on a request
exception. -/
def searchAttempt : SearchResp → Except SearchErr (List ImageRec)
  | .timeoutErr => .error .timeout
  | .clientErr => .error .client
  | .otherErr => .error .other
  | .http st j _ =>
    .ok (if st = 200 then
           match j with
           | some d => if d.isEmpty then [] else d
           | none => []
         else [])

/-- SafebooruAPI.search_images result (plugin.py lines 251-313): the except
clauses catch every raised error, log it and return an empty list, so the
caught function is total. -/
def searchImages (r : SearchResp) : List ImageRec :=
  match searchAttempt r with
  | .ok l => l
  | .error _ => []

/-- Comma-to-space replacement (plugin.py line 254). -/
def commaSp (c : Char) : Char := if c = ',' then ' ' else c

/-- ASCII filter (plugin.py line 255). -/
def asciiOnly (l : Txt) : Txt := l.filter (fun c => c.toNat < 128)

/-- Python str.strip(): drop leading and trailing whitespace. -/
def pyStrip (l : Txt) : Txt :=
  ((l.dropWhile isPyWs).reverse.dropWhile isPyWs).reverse

/-- Accumulator pass for re.sub(r'\s+', ' '): the flag records whether the
scanner is inside a whitespace run whose replacement space was already
emitted. -/
def collapseGo : Bool → Txt → Txt
  | _, [] => []
  | inRun, c :: cs =>
    if isPyWs c then
      if inRun then collapseGo true cs else ' ' :: collapseGo true cs
    else c :: collapseGo false cs

/-- Python re.sub(r'\s+', ' ', l): each maximal whitespace run becomes one
space (plugin.py line 257). -/
def collapseWs (l : Txt) : Txt := collapseGo false l

/-- The tag normalisation pipeline of search_images before the default check
(plugin.py lines 254-257). -/
def preTags (tags : Txt) : Txt :=
  collapseWs (pyStrip (asciiOnly (tags.map commaSp)))

/-- The processed tag string of search_images, with the default fallback
(plugin.py lines 259-261). -/
def processedTags (tags : Txt) : Txt :=
  if preTags tags = [] then ("anime cute").data else preTags tags

/-- The tags query parameter sent to the image board
(plugin.py line 274). -/
def queryTags (tags rating : Txt) : Txt :=
  processedTags tags ++ (" rating:").data ++ rating

/-- Boolean check that a text has no two adjacent whitespace characters. -/
def noWsPair : Txt → Bool
  | [] => true
  | [_] => true
  | a :: b :: rest => !(isPyWs a && isPyWs b) && noWsPair (b :: rest)

/-- The per-conversation disambiguation state safebooru_vbs_state
(plugin.py lines 457, 619). -/
structure VBSState where
  count : Nat
  pending : Option Txt
deriving DecidableEq, Repr

/-- Observable outcome of one Command/Action execution of the VBS segment:
the clarification prompt (which halts before searching), the low-entropy
prompt (which halts before searching), or a search with the final tag string
and a flag recording the forced-resolution notice. -/
inductive Outcome where
  | promptAmbiguous (tag : Txt) (cands : List TagInfo) : Outcome
  | promptLowEntropy : Outcome
  | search (finalTags : Txt) (forced : Bool) : Outcome
deriving DecidableEq, Repr

/-- First candidate name, Python candidates[0]['name'].  validate_tags only
records candidate lists of length at least 2 (see
`validate_ambiguous_entry_len`), so the empty case never arises on reachable
results. -/
def firstName : List TagInfo → Txt
  | [] => []
  | c :: _ => c.name

/-- The forced-resolution tag string: the first candidate of every ambiguous
tag appended, each preceded by a space (plugin.py lines 478-479, 640-641). -/
def forcedAppend (base : Txt) (amb : List (Txt × List TagInfo)) : Txt :=
  amb.foldl (fun acc kv => acc ++ ' ' :: firstName kv.2) base

/-- The VBS segment of SafebooruCommand.execute / SafebooruAction.execute
(plugin.py lines 457-486 and 619-648, which are identical): reads the state
attribute (absent modelled as `none`, read with the default count 0), prompts
for clarification while ambiguous entities exist and fewer than 3 attempts
were made, halts on low entropy leaving the state untouched, and otherwise
builds the final tag string (forcing first candidates once the counter
reached 3), deletes the state attribute and proceeds to search. -/
def executeStep (stOpt : Option VBSState) (r : VBSResult) :
    Option VBSState × Outcome :=
  if r.ambiguous ≠ [] ∧ (stOpt.getD ⟨0, none⟩).count < 3 then
    (some ⟨(stOpt.getD ⟨0, none⟩).count + 1,
        some (r.ambiguous.headD ([], [])).1⟩,
      Outcome.promptAmbiguous (r.ambiguous.headD ([], [])).1
        (r.ambiguous.headD ([], [])).2)
  else if r.low_entropy then (stOpt, Outcome.promptLowEntropy)
  else if 3 ≤ (stOpt.getD ⟨0, none⟩).count then
    (none, Outcome.search (forcedAppend (joinSp r.validated) r.ambiguous) true)
  else (none, Outcome.search (joinSp r.validated) false)

/-- The stored state after a sequence of VBS executions in one conversation,
starting from an absent attribute.  Invocations that return before the VBS
segment (trigger filter, command-format check) do not touch the attribute and
need not appear in the trace. -/
def runTrace (st : Option VBSState) : List VBSResult → Option VBSState
  | [] => st
  | r :: rs => runTrace (executeStep st r).1 rs

/-- The attempt counter stored on the chat stream (0 when absent). -/
def stateCount : Option VBSState → Nat
  | none => 0
  | some st => st.count

/-- A server whose lookups always return 200 with an empty JSON list. -/
def srvEmpty : Server :=
  ⟨fun _ => .resp 200 (some []), fun _ => .resp 200 (some [])⟩

/-- A server whose lookups always raise a network error. -/
def srvRaise : Server := ⟨fun _ => .raise, fun _ => .raise⟩

/-- A server on which every exact lookup misses and every fuzzy lookup
returns two ASCII candidates: it makes every non-fast-path tag ambiguous. -/
def srvAmb : Server :=
  ⟨fun _ => .resp 200 (some []),
   fun _ => .resp 200 (some [⟨("girls").data⟩, ⟨("girl_on_top").data⟩])⟩

/-- The validation result srvAmb produces on the input girl: simultaneously
low-entropy and ambiguous. -/
def rGirlAmb : VBSResult :=
  ⟨[], [(("girl").data, [⟨("girls").data⟩, ⟨("girl_on_top").data⟩])],
   true, false⟩

/-- The same ambiguous validation result with low_entropy off (as produced
for a non-weak tag such as foo on srvAmb). -/
def rFooAmb : VBSResult :=
  ⟨[], [(("foo").data, [⟨("girls").data⟩, ⟨("girl_on_top").data⟩])],
   false, false⟩

/-! Generic list lemmas. -/

theorem memB_iff {x : Txt} {l : List Txt} : memB x l = true ↔ x ∈ l := by
  simp [memB]

theorem concatMap_append (f : α → List β) (l1 l2 : List α) :
    concatMap f (l1 ++ l2) = concatMap f l1 ++ concatMap f l2 := by
  induction l1 with
  | nil => simp [concatMap]
  | cons a as ih => simp [concatMap, ih]

theorem mem_concatMap {f : α → List β} {b : β} {l : List α} :
    b ∈ concatMap f l ↔ ∃ a ∈ l, b ∈ f a := by
  induction l with
  | nil => simp [concatMap]
  | cons a as ih => simp [concatMap, ih]

/-! Lemmas about the validate_tags loop. -/

theorem processTag_fast (srv : Server) (t : Txt) :
    (processTag srv t).fast = memB (lowerT t) fastL := by
  unfold processTag
  split <;> simp_all

theorem processTag_of_fast (srv : Server) (t : Txt)
    (h : memB (lowerT t) fastL = true) :
    processTag srv t = ⟨[t], [], [], true⟩ := by
  unfold processTag
  simp [h]

theorem processTag_of_slow (srv : Server) (t : Txt)
    (h : memB (lowerT t) fastL = false) :
    processTag srv t = ⟨(processSlow srv t).validated,
      (processSlow srv t).ambiguous, (processSlow srv t).reqs, false⟩ := by
  unfold processTag
  simp [h]

theorem foldl_validated (srv : Server) (ts : List Txt) (a : Acc) :
    (ts.foldl (stepAcc srv) a).validated =
      a.validated ++ concatMap (fun t => (processTag srv t).validated) ts := by
  induction ts generalizing a with
  | nil => simp [concatMap]
  | cons t ts ih => simp [List.foldl_cons, ih, stepAcc, concatMap]

theorem foldl_reqs (srv : Server) (ts : List Txt) (a : Acc) :
    (ts.foldl (stepAcc srv) a).reqs =
      a.reqs ++ concatMap (fun t => (processTag srv t).reqs) ts := by
  induction ts generalizing a with
  | nil => simp [concatMap]
  | cons t ts ih => simp [List.foldl_cons, ih, stepAcc, concatMap]

theorem foldl_fast (srv : Server) (ts : List Txt) (a : Acc) :
    (ts.foldl (stepAcc srv) a).fast =
      (a.fast && ts.all (fun t => (processTag srv t).fast)) := by
  induction ts generalizing a with
  | nil => simp
  | cons t ts ih => simp [List.foldl_cons, ih, stepAcc, Bool.and_assoc]

theorem validateTags_validated (srv : Server) (s : Txt) :
    (validateTags srv s).1.validated =
      concatMap (fun t => (processTag srv t).validated) (pySplitWs s) := by
  unfold validateTags
  simp [foldl_validated]

theorem validateTags_reqs (srv : Server) (s : Txt) :
    (validateTags srv s).2 =
      concatMap (fun t => (processTag srv t).reqs) (pySplitWs s) := by
  unfold validateTags
  simp [foldl_reqs]

theorem validateTags_low (srv : Server) (s : Txt) :
    (validateTags srv s).1.low_entropy =
      (pySplitWs s).all (fun t => memB (lowerT t) weakL) := by
  unfold validateTags
  simp

theorem validateTags_fast (srv : Server) (s : Txt) :
    (validateTags srv s).1.fast_path =
      (!(pySplitWs s).all (fun t => memB (lowerT t) weakL) &&
        (pySplitWs s).all (fun t => memB (lowerT t) fastL)) := by
  unfold validateTags
  simp [foldl_fast, processTag_fast]

theorem processSlow_req_mem (srv : Server) (t : Txt) :
    Req.exact t ∈ (processSlow srv t).reqs := by
  unfold processSlow
  repeat' split
  all_goals simp

theorem processSlow_reqTag (srv : Server) (t : Txt) :
    ∀ rq ∈ (processSlow srv t).reqs, reqTag rq = t := by
  unfold processSlow
  repeat' split
  all_goals simp [reqTag]

theorem processSlow_amb_shape (srv : Server) (t : Txt) :
    (processSlow srv t).ambiguous = [] ∨
      ∃ v, (processSlow srv t).ambiguous = [(t, v)] ∧ 2 ≤ v.length ∧
        v.length ≤ 5 := by
  unfold processSlow
  repeat' split
  all_goals simp

theorem processSlow_raise (srv : Server) (t : Txt)
    (h : srv.exact t = .raise) :
    processSlow srv t = ⟨[t], [], [Req.exact t], true⟩ := by
  unfold processSlow
  rw [h]

theorem processSlow_reqs_of_miss (srv : Server) (t : Txt)
    (hex : srv.exact t = .resp 200 (some [])) :
    (processSlow srv t).reqs = [Req.exact t, Req.fuzzy t] := by
  unfold processSlow
  rw [hex]
  repeat' split
  all_goals simp_all

theorem processTag_amb_shape (srv : Server) (t : Txt) :
    (processTag srv t).ambiguous = [] ∨
      ∃ v, (processTag srv t).ambiguous = [(t, v)] ∧ 2 ≤ v.length ∧
        v.length ≤ 5 := by
  unfold processTag
  split
  · exact Or.inl rfl
  · simpa using processSlow_amb_shape srv t

theorem lookupA_updAssoc_self (m : List (Txt × List TagInfo)) (k : Txt)
    (v : List TagInfo) : lookupA (updAssoc m k v) k = some v := by
  induction m with
  | nil => simp [updAssoc, lookupA]
  | cons kv rest ih =>
    obtain ⟨k2, v2⟩ := kv
    by_cases h : k2 = k <;> simp [updAssoc, lookupA, h, ih]

theorem lookupA_updAssoc_other (m : List (Txt × List TagInfo)) (k u : Txt)
    (w : List TagInfo) (h : u ≠ k) :
    lookupA (updAssoc m u w) k = lookupA m k := by
  induction m with
  | nil => simp [updAssoc, lookupA, h]
  | cons kv rest ih =>
    obtain ⟨k2, v2⟩ := kv
    by_cases h2 : k2 = u
    · subst h2
      simp [updAssoc, lookupA, h]
    · simp [updAssoc, lookupA, h2, ih]

theorem foldl_amb_lookup (srv : Server) (ts : List Txt) (a : Acc) (t : Txt)
    (v : List TagInfo) (hshape : (processTag srv t).ambiguous = [(t, v)])
    (hinv : lookupA a.ambiguous t = some v ∨ t ∈ ts) :
    lookupA (ts.foldl (stepAcc srv) a).ambiguous t = some v := by
  induction ts generalizing a with
  | nil =>
    rcases hinv with h | h
    · simpa using h
    · simp at h
  | cons u ts ih =>
    rw [List.foldl_cons]
    apply ih
    by_cases hu : u = t
    · subst hu
      left
      simp [stepAcc, hshape, lookupA_updAssoc_self]
    · rcases processTag_amb_shape srv u with hsh | ⟨w, hsh, -, -⟩
      · rcases hinv with h | h
        · left
          simpa [stepAcc, hsh] using h
        · right
          rcases List.mem_cons.mp h with h | h
          · exact absurd h.symm hu
          · exact h
      · rcases hinv with h | h
        · left
          show lookupA (stepAcc srv a u).ambiguous t = some v
          simp only [stepAcc, hsh, List.foldl_cons, List.foldl_nil]
          rw [lookupA_updAssoc_other _ _ _ _ (fun he => hu he)]
          exact h
        · right
          rcases List.mem_cons.mp h with h | h
          · exact absurd h.symm hu
          · exact h

theorem validateTags_amb_lookup (srv : Server) (s : Txt) (t : Txt)
    (v : List TagInfo) (hmem : t ∈ pySplitWs s)
    (hshape : (processTag srv t).ambiguous = [(t, v)]) :
    lookupA (validateTags srv s).1.ambiguous t = some v := by
  unfold validateTags
  simpa using foldl_amb_lookup srv (pySplitWs s) _ t v hshape (Or.inr hmem)

theorem validateTags_singleton (srv : Server) (s : Txt) (t : Txt)
    (hsplit : pySplitWs s = [t]) :
    (validateTags srv s).1.validated = (processTag srv t).validated ∧
      (validateTags srv s).1.ambiguous = (processTag srv t).ambiguous := by
  unfold validateTags
  rw [hsplit]
  refine ⟨by simp [stepAcc], ?_⟩
  rcases processTag_amb_shape srv t with hsh | ⟨v, hsh, -, -⟩ <;>
    simp [stepAcc, hsh, updAssoc]

theorem mem_updAssoc {m : List (Txt × List TagInfo)} {k : Txt}
    {v : List TagInfo} {kv : Txt × List TagInfo}
    (h : kv ∈ updAssoc m k v) : kv ∈ m ∨ kv.2 = v := by
  induction m with
  | nil =>
    simp [updAssoc] at h
    exact Or.inr (h ▸ rfl)
  | cons kv2 rest ih =>
    obtain ⟨k2, v2⟩ := kv2
    by_cases he : k2 = k
    · simp only [updAssoc, if_pos he] at h
      rcases List.mem_cons.mp h with h | h
      · exact Or.inr (h ▸ rfl)
      · exact Or.inl (List.mem_cons_of_mem _ h)
    · simp only [updAssoc, if_neg he] at h
      rcases List.mem_cons.mp h with h | h
      · exact Or.inl (h ▸ List.mem_cons_self _ _)
      · rcases ih h with h2 | h2
        · exact Or.inl (List.mem_cons_of_mem _ h2)
        · exact Or.inr h2

/-- Every candidate list recorded in ambiguous_entities has between 2 and 5
entries (so Python's candidates[0] never raises on it). -/
theorem validate_ambiguous_entry_len (srv : Server) (s : Txt) :
    ∀ kv ∈ (validateTags srv s).1.ambiguous,
      2 ≤ kv.2.length ∧ kv.2.length ≤ 5 := by
  unfold validateTags
  simp only
  have main : ∀ (ts : List Txt) (a : Acc),
      (∀ kv ∈ a.ambiguous, 2 ≤ kv.2.length ∧ kv.2.length ≤ 5) →
      ∀ kv ∈ (ts.foldl (stepAcc srv) a).ambiguous,
        2 ≤ kv.2.length ∧ kv.2.length ≤ 5 := by
    intro ts
    induction ts with
    | nil => intro a ha; simpa using ha
    | cons u ts ih =>
      intro a ha
      rw [List.foldl_cons]
      apply ih
      rcases processTag_amb_shape srv u with hsh | ⟨v, hsh, hv2, hv5⟩
      · simpa [stepAcc, hsh] using ha
      · simp only [stepAcc, hsh, List.foldl_cons, List.foldl_nil]
        intro kv hkv
        rcases mem_updAssoc hkv with h | h
        · exact ha kv h
        · exact h ▸ ⟨hv2, hv5⟩
  exact main (pySplitWs s) _ (by simp)

theorem fast_not_weak {w : Txt} (h : memB w fastL = true) :
    memB w weakL = false := by
  have hd : ∀ u ∈ fastL, memB u weakL = false := by decide
  exact hd w (memB_iff.mp h)

theorem weak_not_fast {w : Txt} (h : memB w weakL = true) :
    memB w fastL = false := by
  have hd : ∀ u ∈ weakL, memB u fastL = false := by decide
  exact hd w (memB_iff.mp h)

theorem processSlow_fuzzy_multi (srv : Server) (t : Txt)
    (fdata : List TagInfo) (c1 c2 : TagInfo) (cs : List TagInfo)
    (hex : srv.exact t = .resp 200 (some []))
    (hfz : srv.fuzzy t = .resp 200 (some fdata))
    (hflt : fdata.filter asciiName = c1 :: c2 :: cs) :
    processSlow srv t = ⟨[], [(t, (c1 :: c2 :: cs).take 5)],
      [Req.exact t, Req.fuzzy t], false⟩ := by
  unfold processSlow
  rw [hex]
  simp only [hfz]
  cases fdata with
  | nil => simp at hflt
  | cons c0 rest => simp [hflt]

theorem processSlow_fuzzy_one (srv : Server) (t : Txt)
    (fdata : List TagInfo) (c : TagInfo)
    (hex : srv.exact t = .resp 200 (some []))
    (hfz : srv.fuzzy t = .resp 200 (some fdata))
    (hflt : fdata.filter asciiName = [c]) :
    processSlow srv t = ⟨[c.name], [], [Req.exact t, Req.fuzzy t],
      false⟩ := by
  unfold processSlow
  rw [hex]
  simp only [hfz]
  cases fdata with
  | nil => simp at hflt
  | cons c0 rest => simp [hflt]

theorem processSlow_fuzzy_none (srv : Server) (t : Txt)
    (fdata : List TagInfo)
    (hex : srv.exact t = .resp 200 (some []))
    (hfz : srv.fuzzy t = .resp 200 (some fdata))
    (hflt : fdata.filter asciiName = []) :
    processSlow srv t = ⟨[], [], [Req.exact t, Req.fuzzy t], false⟩ := by
  unfold processSlow
  rw [hex]
  simp only [hfz]
  cases fdata with
  | nil => rfl
  | cons c0 rest => simp [hflt]

/-! Theorems for the individual claims. -/

/-- C9: for an empty or whitespace-only tag string, validate_tags returns
low_entropy = true (the weak-semantics test is vacuously true on the empty
token list), fast_path = false, empty validated_tags, empty
ambiguous_entities, and issues no remote request. -/
theorem validate_empty_input (srv : Server) (s : Txt)
    (h : pySplitWs s = []) :
    validateTags srv s = (⟨[], [], true, false⟩, []) := by
  unfold validateTags
  rw [h]
  rfl

/-- Witness for validate_empty_input at the whitespace-only input. -/
theorem validate_empty_input_witness :
    validateTags srvRaise (("  ").data) = (⟨[], [], true, false⟩, []) :=
  validate_empty_input srvRaise (("  ").data) (by decide)

/-- C5: a tag whose lowercase form is on the fast-path allow-list is appended
to validated_tags and no remote request about it is issued. -/
theorem validate_fast_path_no_request (srv : Server) (s : Txt) (t : Txt)
    (hmem : t ∈ pySplitWs s) (hfp : memB (lowerT t) fastL = true) :
    t ∈ (validateTags srv s).1.validated ∧
      ∀ rq ∈ (validateTags srv s).2, reqTag rq ≠ t := by
  constructor
  · rw [validateTags_validated]
    exact mem_concatMap.mpr ⟨t, hmem, by simp [processTag_of_fast srv t hfp]⟩
  · intro rq hrq heq
    rw [validateTags_reqs] at hrq
    rcases mem_concatMap.mp hrq with ⟨u, hu, hru⟩
    by_cases hf : memB (lowerT u) fastL = true
    · rw [processTag_of_fast srv u hf] at hru
      simp at hru
    · rw [processTag_of_slow srv u (Bool.not_eq_true _ ▸ hf)] at hru
      have hut : reqTag rq = u := processSlow_reqTag srv u rq (by simpa using hru)
      rw [heq] at hut
      rw [← hut] at hf
      exact hf hfp

/-- Witness for validate_fast_path_no_request: hatsune_miku is accepted with
no request about it even on a server that always raises. -/
theorem validate_fast_path_no_request_witness :
    ("hatsune_miku").data ∈
        (validateTags srvRaise (("hatsune_miku girl").data)).1.validated ∧
      ∀ rq ∈ (validateTags srvRaise (("hatsune_miku girl").data)).2,
        reqTag rq ≠ ("hatsune_miku").data :=
  validate_fast_path_no_request srvRaise (("hatsune_miku girl").data)
    (("hatsune_miku").data) (by decide) (by decide)

/-- C8: a network error during the lookup of one tag keeps the original tag
(the per-tag handler appends it and logs the error) and the loop continues
processing every other tag. -/
theorem validate_network_error_keeps_tag (srv : Server) (s t : Txt)
    (l1 l2 : List Txt) (hsplit : pySplitWs s = l1 ++ t :: l2)
    (hfp : memB (lowerT t) fastL = false)
    (herr : srv.exact t = .raise) :
    processSlow srv t = ⟨[t], [], [Req.exact t], true⟩ ∧
      (validateTags srv s).1.validated =
        concatMap (fun u => (processTag srv u).validated) l1 ++
          t :: concatMap (fun u => (processTag srv u).validated) l2 := by
  refine ⟨processSlow_raise srv t herr, ?_⟩
  rw [validateTags_validated, hsplit, concatMap_append]
  simp [concatMap, processTag_of_slow srv t hfp, processSlow_raise srv t herr]

/-- Witness for validate_network_error_keeps_tag on the input foo bar with a
server that always raises. -/
theorem validate_network_error_keeps_tag_witness :
    processSlow srvRaise (("foo").data) =
        ⟨[("foo").data], [], [Req.exact (("foo").data)], true⟩ ∧
      (validateTags srvRaise (("foo bar").data)).1.validated =
        concatMap (fun u => (processTag srvRaise u).validated) [] ++
          ("foo").data ::
            concatMap (fun u => (processTag srvRaise u).validated)
              [("bar").data] :=
  validate_network_error_keeps_tag srvRaise (("foo bar").data) (("foo").data)
    [] [("bar").data] (by decide) (by decide) rfl

/-- C10: fast_path is true exactly when the token list is non-empty and every
token's lowercase form is on the allow-list; any other tag, or an all-weak
input (which includes the empty token list), forces it to false. -/
theorem validate_fast_path_iff (srv : Server) (s : Txt) :
    (validateTags srv s).1.fast_path = true ↔
      (pySplitWs s ≠ [] ∧
        ∀ t ∈ pySplitWs s, memB (lowerT t) fastL = true) := by
  constructor
  · intro h
    rw [validateTags_fast] at h
    rcases Bool.and_eq_true_iff.mp h with ⟨hnw, hall⟩
    rw [List.all_eq_true] at hall
    refine ⟨?_, hall⟩
    intro hnil
    rw [hnil] at hnw
    simp at hnw
  · rintro ⟨hne, hall⟩
    have hwk : (pySplitWs s).all (fun t => memB (lowerT t) weakL) = false := by
      rcases List.exists_mem_of_ne_nil _ hne with ⟨t0, ht0⟩
      by_contra hh
      rw [Bool.not_eq_false, List.all_eq_true] at hh
      have h1 := hh t0 ht0
      have h2 := fast_not_weak (hall t0 ht0)
      simp [h2] at h1
    rw [validateTags_fast, hwk]
    simpa [List.all_eq_true] using hall

/-- C1 counterexample: on the all-weak input girl, validate_tags sets
low_entropy but still issues a remote lookup (the request list is non-empty),
so remote validation is not skipped. -/
theorem validate_low_entropy_still_queries_cex :
    (validateTags srvEmpty (("girl").data)).1.low_entropy = true ∧
      (validateTags srvEmpty (("girl").data)).2 ≠ [] := by decide

/-- C1 amended: an all-weak non-empty input sets low_entropy = true and
fast_path = false, but an exact-name lookup request is still issued for every
tag (weak tags are never on the fast-path allow-list). -/
theorem validate_low_entropy_all_weak (srv : Server) (s : Txt)
    (hne : pySplitWs s ≠ [])
    (hw : ∀ t ∈ pySplitWs s, memB (lowerT t) weakL = true) :
    (validateTags srv s).1.low_entropy = true ∧
      (validateTags srv s).1.fast_path = false ∧
      ∀ t ∈ pySplitWs s, Req.exact t ∈ (validateTags srv s).2 := by
  refine ⟨?_, ?_, ?_⟩
  · rw [validateTags_low, List.all_eq_true]
    exact hw
  · rw [validateTags_fast]
    have hall : (pySplitWs s).all (fun t => memB (lowerT t) weakL) = true :=
      List.all_eq_true.mpr hw
    simp [hall]
  · intro t ht
    rw [validateTags_reqs]
    refine mem_concatMap.mpr ⟨t, ht, ?_⟩
    rw [processTag_of_slow srv t (weak_not_fast (hw t ht))]
    simpa using processSlow_req_mem srv t

/-- Witness for validate_low_entropy_all_weak at the input girl. -/
theorem validate_low_entropy_all_weak_witness :
    (validateTags srvEmpty (("girl").data)).1.low_entropy = true ∧
      (validateTags srvEmpty (("girl").data)).1.fast_path = false ∧
      ∀ t ∈ pySplitWs (("girl").data),
        Req.exact t ∈ (validateTags srvEmpty (("girl").data)).2 :=
  validate_low_entropy_all_weak srvEmpty (("girl").data) (by decide)
    (by decide)

/-- C2 counterexample: on a server where the exact lookup misses and the
fuzzy lookup returns no candidate, the tag foo is dropped: it appears neither
in validated_tags nor in ambiguous_entities, contradicting the claim that the
original tag is retained as a fallback. -/
theorem validate_fuzzy_none_drops_tag_cex :
    (validateTags srvEmpty (("foo").data)).1.validated = [] ∧
      (validateTags srvEmpty (("foo").data)).1.ambiguous = [] := by decide

/-- C2 amended: for a tag missed by the exact lookup, a fuzzy request is
issued; more than one ASCII-only candidate records the tag as ambiguous with
at most 5 candidates, exactly one appends that candidate's name, and no
ASCII-only candidate drops the tag from the result (the original tag is
retained only by the exception handler, not by the empty-candidate path). -/
theorem validate_fuzzy_branches (srv : Server) (s t : Txt)
    (fdata : List TagInfo) (hmem : t ∈ pySplitWs s)
    (hfp : memB (lowerT t) fastL = false)
    (hex : srv.exact t = .resp 200 (some []))
    (hfz : srv.fuzzy t = .resp 200 (some fdata)) :
    Req.fuzzy t ∈ (validateTags srv s).2 ∧
      (∀ c1 c2 cs, fdata.filter asciiName = c1 :: c2 :: cs →
        lookupA (validateTags srv s).1.ambiguous t =
          some ((c1 :: c2 :: cs).take 5) ∧
          ((c1 :: c2 :: cs).take 5).length ≤ 5) ∧
      (∀ c, fdata.filter asciiName = [c] →
        c.name ∈ (validateTags srv s).1.validated) ∧
      (fdata.filter asciiName = [] → pySplitWs s = [t] →
        (validateTags srv s).1.validated = [] ∧
          (validateTags srv s).1.ambiguous = []) := by
  have hpt := processTag_of_slow srv t hfp
  refine ⟨?_, ?_, ?_, ?_⟩
  · rw [validateTags_reqs]
    refine mem_concatMap.mpr ⟨t, hmem, ?_⟩
    rw [hpt]
    simp [processSlow_reqs_of_miss srv t hex]
  · intro c1 c2 cs hflt
    have hps := processSlow_fuzzy_multi srv t fdata c1 c2 cs hex hfz hflt
    refine ⟨validateTags_amb_lookup srv s t _ hmem ?_,
      List.length_take_le _ _⟩
    rw [hpt, hps]
  · intro c hflt
    have hps := processSlow_fuzzy_one srv t fdata c hex hfz hflt
    rw [validateTags_validated]
    refine mem_concatMap.mpr ⟨t, hmem, ?_⟩
    rw [hpt, hps]
    simp
  · intro hflt hsingle
    have hps := processSlow_fuzzy_none srv t fdata hex hfz hflt
    obtain ⟨hv, ha⟩ := validateTags_singleton srv s t hsingle
    rw [hv, ha, hpt, hps]
    exact ⟨rfl, rfl⟩

/-- Witness for validate_fuzzy_branches: on srvAmb the tag foo becomes
ambiguous with its two fuzzy candidates. -/
theorem validate_fuzzy_branches_witness :
    Req.fuzzy (("foo").data) ∈ (validateTags srvAmb (("foo").data)).2 ∧
      (∀ c1 c2 cs,
        ([⟨("girls").data⟩, ⟨("girl_on_top").data⟩] : List TagInfo).filter
            asciiName = c1 :: c2 :: cs →
        lookupA (validateTags srvAmb (("foo").data)).1.ambiguous
            (("foo").data) = some ((c1 :: c2 :: cs).take 5) ∧
          ((c1 :: c2 :: cs).take 5).length ≤ 5) ∧
      (∀ c, ([⟨("girls").data⟩, ⟨("girl_on_top").data⟩] :
          List TagInfo).filter asciiName = [c] →
        c.name ∈ (validateTags srvAmb (("foo").data)).1.validated) ∧
      (([⟨("girls").data⟩, ⟨("girl_on_top").data⟩] :
          List TagInfo).filter asciiName = [] →
        pySplitWs (("foo").data) = [("foo").data] →
        (validateTags srvAmb (("foo").data)).1.validated = [] ∧
          (validateTags srvAmb (("foo").data)).1.ambiguous = []) :=
  validate_fuzzy_branches srvAmb (("foo").data) (("foo").data)
    [⟨("girls").data⟩, ⟨("girl_on_top").data⟩] (by decide) (by decide) rfl rfl

/-- C7: search_images maps a non-200 status, a JSON decode failure and a
request exception (timeout, client error or any other) all to the empty list,
and the catch-all makes the function total, so no exception reaches the
caller. -/
theorem search_images_error_handling :
    (∀ st j tx, st ≠ 200 → searchImages (SearchResp.http st j tx) = []) ∧
      (∀ tx, searchImages (SearchResp.http 200 none tx) = []) ∧
      searchImages SearchResp.timeoutErr = [] ∧
      searchImages SearchResp.clientErr = [] ∧
      searchImages SearchResp.otherErr = [] ∧
      (∀ r e, searchAttempt r = Except.error e → searchImages r = []) := by
  refine ⟨?_, fun tx => rfl, rfl, rfl, rfl, ?_⟩
  · intro st j tx h
    simp [searchImages, searchAttempt, h]
  · intro r e h
    simp [searchImages, h]

/-- Witness for search_images_error_handling at an HTTP 404 response. -/
theorem search_images_error_handling_witness :
    searchImages (SearchResp.http 404 none []) = [] ∧
      searchImages SearchResp.timeoutErr = [] :=
  ⟨search_images_error_handling.1 404 none [] (by decide),
    search_images_error_handling.2.2.1⟩

/-! Lemmas for the disambiguation state machine. -/

theorem stateCount_getD (st : Option VBSState) :
    stateCount st = (st.getD ⟨0, none⟩).count := by
  cases st <;> rfl

theorem executeStep_count_le (st : Option VBSState) (r : VBSResult)
    (h : stateCount st ≤ 3) : stateCount (executeStep st r).1 ≤ 3 := by
  have hc := stateCount_getD st
  unfold executeStep
  by_cases h1 : r.ambiguous ≠ [] ∧ (st.getD ⟨0, none⟩).count < 3
  · rw [if_pos h1]
    simp only [stateCount]
    omega
  · rw [if_neg h1]
    by_cases h2 : r.low_entropy = true
    · rw [if_pos h2]
      exact h
    · rw [if_neg h2]
      by_cases h3 : 3 ≤ (st.getD ⟨0, none⟩).count
      · rw [if_pos h3]
        simp [stateCount]
      · rw [if_neg h3]
        simp [stateCount]

theorem runTrace_count_le (rs : List VBSResult) :
    stateCount (runTrace none rs) ≤ 3 := by
  have main : ∀ (rs2 : List VBSResult) (st : Option VBSState),
      stateCount st ≤ 3 → stateCount (runTrace st rs2) ≤ 3 := by
    intro rs2
    induction rs2 with
    | nil => intro st h; exact h
    | cons r rs2 ih =>
      intro st h
      exact ih _ (executeStep_count_le st r h)
  exact main rs none (by simp [stateCount])

theorem forcedAppend_eq (base : Txt) (amb : List (Txt × List TagInfo)) :
    forcedAppend base amb =
      base ++ concatMap (fun kv => ' ' :: firstName kv.2) amb := by
  induction amb generalizing base with
  | nil => simp [forcedAppend, concatMap]
  | cons kv rest ih =>
    unfold forcedAppend at ih ⊢
    rw [List.foldl_cons, ih, concatMap]
    simp

/-- C3 amended: the stored attempt counter never exceeds 3 along any
conversation trace; once it equals 3, an invocation that still finds
ambiguous tags and is not low-entropy does not prompt again but appends the
first candidate of every still-ambiguous tag to the final tag string,
proceeds to search and discards the state, while an invocation that is
simultaneously low-entropy halts at the low-entropy prompt and keeps the
stored state. -/
theorem vbs_attempt_discipline (rs : List VBSResult) (r : VBSResult) :
    stateCount (runTrace none rs) ≤ 3 ∧
      (stateCount (runTrace none rs) = 3 → r.ambiguous ≠ [] →
        (r.low_entropy = false →
          executeStep (runTrace none rs) r =
            (none, Outcome.search
              (joinSp r.validated ++
                concatMap (fun kv => ' ' :: firstName kv.2) r.ambiguous)
              true)) ∧
        (r.low_entropy = true →
          executeStep (runTrace none rs) r =
            (runTrace none rs, Outcome.promptLowEntropy))) := by
  refine ⟨runTrace_count_le rs, ?_⟩
  intro h3 hamb
  have hc : ((runTrace none rs).getD ⟨0, none⟩).count = 3 := by
    rw [← stateCount_getD]
    exact h3
  constructor <;> intro hlow
  · rw [← forcedAppend_eq]
    unfold executeStep
    rw [if_neg (fun hcond => by rw [hc] at hcond; omega)]
    rw [hlow]
    rw [if_neg (fun hf => Bool.false_ne_true hf)]
    rw [if_pos (by rw [hc])]
  · unfold executeStep
    rw [if_neg (fun hcond => by rw [hc] at hcond; omega)]
    rw [hlow]
    rw [if_pos rfl]

/-- Witness for vbs_attempt_discipline: after three ambiguous prompts for
foo, the counter is 3 and the fourth ambiguous invocation proceeds to a
forced search and discards the state. -/
theorem vbs_attempt_discipline_witness :
    stateCount (runTrace none [rFooAmb, rFooAmb, rFooAmb]) = 3 ∧
      executeStep (runTrace none [rFooAmb, rFooAmb, rFooAmb]) rFooAmb =
        (none, Outcome.search
          (joinSp rFooAmb.validated ++
            concatMap (fun kv => ' ' :: firstName kv.2) rFooAmb.ambiguous)
          true) :=
  ⟨by decide,
    ((vbs_attempt_discipline [rFooAmb, rFooAmb, rFooAmb] rFooAmb).2
      (by decide) (by decide)).1 rfl⟩

/-- C3 counterexample: the validation result for girl on srvAmb is both
ambiguous and low-entropy; after three prompts the counter is 3, yet the
fourth invocation that still finds ambiguous tags halts at the low-entropy
prompt instead of proceeding to search, and keeps the stored state instead of
discarding it. -/
theorem vbs_forced_resolution_low_entropy_cex :
    (validateTags srvAmb (("girl").data)).1 = rGirlAmb ∧
      stateCount (runTrace none [rGirlAmb, rGirlAmb, rGirlAmb]) = 3 ∧
      rGirlAmb.ambiguous ≠ [] ∧
      (executeStep (runTrace none [rGirlAmb, rGirlAmb, rGirlAmb])
          rGirlAmb).2 = Outcome.promptLowEntropy ∧
      (executeStep (runTrace none [rGirlAmb, rGirlAmb, rGirlAmb])
          rGirlAmb).1 ≠ none := by decide

/-! Lemmas for the search_images tag normalisation. -/

theorem noWsPair_cons (a : Char) (l : Txt) :
    noWsPair (a :: l) =
      ((match l with
        | [] => true
        | b :: _ => !(isPyWs a && isPyWs b)) && noWsPair l) := by
  cases l <;> simp [noWsPair]

/-- Boolean check that a text does not start with whitespace. -/
def headNotWs : Txt → Bool
  | [] => true
  | c :: _ => !isPyWs c

theorem collapseGo_true_headNotWs (cs : Txt) :
    headNotWs (collapseGo true cs) = true := by
  induction cs with
  | nil => rfl
  | cons c cs ih =>
    by_cases h : isPyWs c
    · simpa [collapseGo, h] using ih
    · simp [collapseGo, h, headNotWs]

theorem collapseGo_noWsPair (cs : Txt) (b : Bool) :
    noWsPair (collapseGo b cs) = true := by
  induction cs generalizing b with
  | nil => rfl
  | cons c cs ih =>
    by_cases h : isPyWs c
    · cases b
      · have hgo : collapseGo false (c :: cs) = ' ' :: collapseGo true cs := by
          simp [collapseGo, h]
        rw [hgo]
        cases hcg : collapseGo true cs with
        | nil => rfl
        | cons d rest =>
          have hh := collapseGo_true_headNotWs cs
          rw [hcg] at hh
          simp only [headNotWs] at hh
          have h2 := ih true
          rw [hcg] at h2
          rw [noWsPair_cons]
          simp [hh, h2]
      · have hgo : collapseGo true (c :: cs) = collapseGo true cs := by
          simp [collapseGo, h]
        rw [hgo]
        exact ih true
    · have hgo : collapseGo b (c :: cs) = c :: collapseGo false cs := by
        simp [collapseGo, h]
      rw [hgo]
      cases hcg : collapseGo false cs with
      | nil => simp [noWsPair]
      | cons d rest =>
        have h2 := ih false
        rw [hcg] at h2
        rw [noWsPair_cons]
        simp [h, h2]

theorem mem_collapseGo {c : Char} {b : Bool} {l : Txt}
    (h : c ∈ collapseGo b l) : c ∈ l ∨ c = ' ' := by
  induction l generalizing b with
  | nil => simp [collapseGo] at h
  | cons d ds ih =>
    by_cases hd : isPyWs d
    · cases b
      · have hgo : collapseGo false (d :: ds) = ' ' :: collapseGo true ds := by
          simp [collapseGo, hd]
        rw [hgo] at h
        rcases List.mem_cons.mp h with h | h
        · exact Or.inr h
        · rcases ih h with h2 | h2
          · exact Or.inl (List.mem_cons_of_mem _ h2)
          · exact Or.inr h2
      · have hgo : collapseGo true (d :: ds) = collapseGo true ds := by
          simp [collapseGo, hd]
        rw [hgo] at h
        rcases ih h with h2 | h2
        · exact Or.inl (List.mem_cons_of_mem _ h2)
        · exact Or.inr h2
    · have hgo : collapseGo b (d :: ds) = d :: collapseGo false ds := by
        simp [collapseGo, hd]
      rw [hgo] at h
      rcases List.mem_cons.mp h with h | h
      · exact Or.inl (h ▸ List.mem_cons_self _ _)
      · rcases ih h with h2 | h2
        · exact Or.inl (List.mem_cons_of_mem _ h2)
        · exact Or.inr h2

theorem mem_pyStrip {c : Char} {l : Txt} (h : c ∈ pyStrip l) : c ∈ l := by
  unfold pyStrip at h
  rw [List.mem_reverse] at h
  have h2 := (List.dropWhile_sublist isPyWs).subset h
  rw [List.mem_reverse] at h2
  exact (List.dropWhile_sublist isPyWs).subset h2

/-- C6: search_images strips every non-ASCII character (the processed tag
string is pure ASCII), collapses whitespace runs (no two adjacent whitespace
characters remain), and when the stripped result is empty the query is built
from the fixed default pair anime cute. -/
theorem search_tags_normalization (tags rating : Txt) :
    (∀ c ∈ processedTags tags, c.toNat < 128) ∧
      noWsPair (processedTags tags) = true ∧
      (preTags tags = [] →
        queryTags tags rating = ("anime cute rating:").data ++ rating) := by
  refine ⟨?_, ?_, ?_⟩
  · intro c hc
    unfold processedTags at hc
    split at hc
    · have hd : ∀ d ∈ ("anime cute").data, d.toNat < 128 := by decide
      exact hd c hc
    · unfold preTags collapseWs at hc
      rcases mem_collapseGo hc with h | h
      · have h2 := mem_pyStrip h
        unfold asciiOnly at h2
        simpa using List.of_mem_filter h2
      · rw [h]
        decide
  · unfold processedTags
    split
    · decide
    · exact collapseGo_noWsPair _ false
  · intro h
    unfold queryTags processedTags
    rw [if_pos h]
    rfl

/-- Witness for search_tags_normalization: an all-non-ASCII tag string
degrades to the default anime cute query. -/
theorem search_tags_normalization_witness :
    preTags (("想看").data) = [] ∧
      queryTags (("想看").data) (("safe").data) =
        ("anime cute rating:safe").data := by
  have h := (search_tags_normalization (("想看").data) (("safe").data)).2.2
  refine ⟨by decide, ?_⟩
  rw [h (by decide)]
  decide

/-! Substring and tokenisation lemmas for extract_tags. -/

theorem liPre_iff {n h : Txt} : liPre n h = true ↔ ∃ v, h = n ++ v := by
  induction n generalizing h with
  | nil => simp [liPre]
  | cons a as ih =>
    cases h with
    | nil => simp [liPre]
    | cons b bs =>
      rw [liPre, Bool.and_eq_true_iff, decide_eq_true_iff, ih]
      constructor
      · rintro ⟨rfl, v, rfl⟩
        exact ⟨v, rfl⟩
      · rintro ⟨v, hv⟩
        simp only [List.cons_append] at hv
        obtain ⟨h1, h2⟩ := List.cons_eq_cons.mp hv
        exact ⟨h1.symm, v, h2⟩

theorem mem_tails_exists {t h : Txt} (ht : t ∈ h.tails) :
    ∃ u, h = u ++ t := by
  induction h with
  | nil =>
    simp [List.tails] at ht
    exact ⟨[], by simp [ht]⟩
  | cons a as ih =>
    rw [List.tails_cons] at ht
    rcases List.mem_cons.mp ht with h1 | h1
    · exact ⟨[], by simp [h1]⟩
    · obtain ⟨u, hu⟩ := ih h1
      exact ⟨a :: u, by simp [hu]⟩

theorem tail_mem_tails (u rest : Txt) : rest ∈ (u ++ rest).tails := by
  induction u with
  | nil =>
    cases rest with
    | nil => simp [List.tails]
    | cons a as => rw [List.nil_append, List.tails_cons]; exact List.mem_cons_self _ _
  | cons a u ih =>
    rw [List.cons_append, List.tails_cons]
    exact List.mem_cons_of_mem _ ih

theorem liSub_iff {n h : Txt} : liSub n h = true ↔ SubSeg n h := by
  constructor
  · intro hs
    unfold liSub at hs
    rw [List.any_eq_true] at hs
    obtain ⟨suf, hsuf, hpre⟩ := hs
    obtain ⟨u, hu⟩ := mem_tails_exists hsuf
    obtain ⟨v, hv⟩ := liPre_iff.mp hpre
    exact ⟨u, v, by rw [hu, hv, List.append_assoc]⟩
  · rintro ⟨u, v, rfl⟩
    unfold liSub
    rw [List.any_eq_true]
    refine ⟨n ++ v, ?_, liPre_iff.mpr ⟨v, rfl⟩⟩
    rw [List.append_assoc]
    exact tail_mem_tails u (n ++ v)

theorem subSeg_trans {a b c : Txt} (h1 : SubSeg a b) (h2 : SubSeg b c) :
    SubSeg a c := by
  obtain ⟨u1, v1, rfl⟩ := h1
  obtain ⟨u2, v2, rfl⟩ := h2
  exact ⟨u2 ++ u1, v1 ++ v2, by simp [List.append_assoc]⟩

theorem subSeg_mem {n h : Txt} (hs : SubSeg n h) : ∀ c ∈ n, c ∈ h := by
  obtain ⟨u, v, rfl⟩ := hs
  intro c hc
  simp [hc]

theorem preSplit {n v xs ys : Txt} {s : Char} (h : n ++ v = xs ++ s :: ys)
    (hs : s ∉ n) : ∃ w, n ++ w = xs := by
  induction n generalizing xs with
  | nil => exact ⟨xs, rfl⟩
  | cons c n2 ih =>
    cases xs with
    | nil =>
      rw [List.nil_append] at h
      simp only [List.cons_append] at h
      obtain ⟨h1, h2⟩ := List.cons_eq_cons.mp h
      exact absurd (by rw [← h1]; exact List.mem_cons_self _ _) hs
    | cons x xs2 =>
      simp only [List.cons_append] at h
      obtain ⟨h1, h2⟩ := List.cons_eq_cons.mp h
      obtain ⟨w, hw⟩ := ih h2 (fun hm => hs (List.mem_cons_of_mem _ hm))
      exact ⟨w, by rw [List.cons_append, hw, h1]⟩

theorem subSeg_split {n : Txt} {s : Char} (hs : s ∉ n) :
    ∀ (xs ys : Txt), SubSeg n (xs ++ s :: ys) → SubSeg n xs ∨ SubSeg n ys := by
  intro xs
  induction xs with
  | nil =>
    intro ys h
    obtain ⟨u, v, he⟩ := h
    rw [List.nil_append] at he
    cases u with
    | nil =>
      rw [List.nil_append] at he
      cases n with
      | nil => exact Or.inl ⟨[], [], rfl⟩
      | cons c n2 =>
        simp only [List.cons_append] at he
        obtain ⟨h1, h2⟩ := List.cons_eq_cons.mp he
        exact absurd (by rw [h1]; exact List.mem_cons_self _ _) hs
    | cons a u2 =>
      simp only [List.cons_append] at he
      obtain ⟨h1, h2⟩ := List.cons_eq_cons.mp he
      exact Or.inr ⟨u2, v, h2⟩
  | cons x xs2 ih =>
    intro ys h
    obtain ⟨u, v, he⟩ := h
    cases u with
    | nil =>
      rw [List.nil_append] at he
      cases n with
      | nil => exact Or.inl ⟨[], x :: xs2, rfl⟩
      | cons c n2 =>
        simp only [List.cons_append] at he
        obtain ⟨h1, h2⟩ := List.cons_eq_cons.mp he
        obtain ⟨w, hw⟩ :=
          preSplit h2.symm (fun hm => hs (List.mem_cons_of_mem _ hm))
        refine Or.inl ⟨[], w, ?_⟩
        rw [List.nil_append, List.cons_append, hw, h1]
    | cons a u2 =>
      simp only [List.cons_append] at he
      obtain ⟨h1, h2⟩ := List.cons_eq_cons.mp he
      rcases ih ys ⟨u2, v, h2⟩ with hL | hR
      · obtain ⟨u3, v3, he3⟩ := hL
        exact Or.inl ⟨x :: u3, v3, by simp [he3]⟩
      · exact Or.inr hR

theorem subSeg_joinSp {n : Txt} (hnsp : ' ' ∉ n) (hne : n ≠ []) :
    ∀ (l : List Txt), SubSeg n (joinSp l) → ∃ t ∈ l, SubSeg n t := by
  intro l
  induction l with
  | nil =>
    intro h
    obtain ⟨u, v, he⟩ := h
    exfalso
    apply hne
    have he2 : u ++ n ++ v = [] := by rw [← he]; rfl
    simp only [List.append_eq_nil] at he2
    exact he2.1.2
  | cons t ts ih =>
    intro h
    cases ts with
    | nil => exact ⟨t, List.mem_cons_self _ _, by simpa [joinSp] using h⟩
    | cons u us =>
      rw [joinSp] at h
      rcases subSeg_split hnsp t _ h with hL | hR
      · exact ⟨t, List.mem_cons_self _ _, hL⟩
      · obtain ⟨t2, ht2, hsub2⟩ := ih hR
        exact ⟨t2, List.mem_cons_of_mem _ ht2, hsub2⟩

theorem runsGo_append_all (p : Char → Bool) (t : Txt) :
    ∀ (cur cs : Txt), (∀ c ∈ t, p c = true) →
      runsGo p cur (t ++ cs) = runsGo p (t.reverse ++ cur) cs := by
  induction t with
  | nil => intro cur cs h; simp
  | cons c t ih =>
    intro cur cs h
    have hc : p c = true := h c (List.mem_cons_self _ _)
    simp only [List.cons_append]
    rw [show runsGo p cur (c :: (t ++ cs)) = runsGo p (c :: cur) (t ++ cs) by
      simp [runsGo, hc]]
    rw [ih (c :: cur) cs (fun d hd => h d (List.mem_cons_of_mem _ hd))]
    congr 1
    simp

theorem runsGo_sep (p : Char → Bool) (cur cs : Txt) (s : Char)
    (hs : p s = false) (hcur : cur ≠ []) :
    runsGo p cur (s :: cs) = cur.reverse :: runsGo p [] cs := by
  simp [runsGo, hs, hcur]

theorem runsP_joinSp (p : Char → Bool) (hsep : p ' ' = false) :
    ∀ (l : List Txt), (∀ t ∈ l, t ≠ [] ∧ ∀ c ∈ t, p c = true) →
      runsP p (joinSp l) = l := by
  intro l
  induction l with
  | nil => intro h; rfl
  | cons t ts ih =>
    intro h
    obtain ⟨htne, htp⟩ := h t (List.mem_cons_self _ _)
    cases ts with
    | nil =>
      unfold runsP
      rw [joinSp]
      have h2 := runsGo_append_all p t [] [] htp
      rw [List.append_nil, List.append_nil] at h2
      rw [h2, runsGo]
      rw [if_neg (by simpa using htne)]
      simp
    | cons u us =>
      unfold runsP
      rw [joinSp]
      have h2 := runsGo_append_all p t [] (' ' :: joinSp (u :: us)) htp
      rw [List.append_nil] at h2
      rw [h2, runsGo_sep p _ _ ' ' hsep (by simpa using htne)]
      simp only [List.reverse_reverse]
      congr 1
      have h3 := ih (fun t2 ht2 => h t2 (List.mem_cons_of_mem _ ht2))
      simpa [runsP] using h3

theorem runsGo_elem_subSeg (p : Char → Bool) :
    ∀ (cs cur r : Txt), r ∈ runsGo p cur cs →
      SubSeg r (cur.reverse ++ cs) := by
  intro cs
  induction cs with
  | nil =>
    intro cur r hr
    rw [runsGo] at hr
    split at hr
    · simp at hr
    · simp at hr
      exact ⟨[], [], by simp [hr]⟩
  | cons c cs ih =>
    intro cur r hr
    rw [runsGo] at hr
    by_cases hc : p c = true
    · rw [if_pos hc] at hr
      have h2 := ih (c :: cur) r hr
      simpa [List.append_assoc] using h2
    · rw [if_neg hc] at hr
      by_cases hcur : cur = []
      · rw [if_pos hcur] at hr
        have h2 := ih [] r hr
        simp only [List.reverse_nil, List.nil_append] at h2
        obtain ⟨u, v, he⟩ := h2
        exact ⟨cur.reverse ++ c :: u, v, by simp [he, List.append_assoc]⟩
      · rw [if_neg hcur] at hr
        rcases List.mem_cons.mp hr with h | h
        · exact ⟨[], c :: cs, by simp [h]⟩
        · have h2 := ih [] r h
          simp only [List.reverse_nil, List.nil_append] at h2
          obtain ⟨u, v, he⟩ := h2
          exact ⟨cur.reverse ++ c :: u, v, by simp [he, List.append_assoc]⟩

theorem runsP_elem_subSeg (p : Char → Bool) (cs r : Txt)
    (hr : r ∈ runsP p cs) : SubSeg r cs := by
  have h2 := runsGo_elem_subSeg p cs [] r hr
  simpa using h2

theorem mem_joinSp {c : Char} :
    ∀ {l : List Txt}, c ∈ joinSp l → c = ' ' ∨ ∃ t ∈ l, c ∈ t := by
  intro l
  induction l with
  | nil => intro h; simp [joinSp] at h
  | cons t ts ih =>
    intro h
    cases ts with
    | nil =>
      exact Or.inr ⟨t, List.mem_cons_self _ _, by simpa [joinSp] using h⟩
    | cons u us =>
      rw [joinSp] at h
      rcases List.mem_append.mp h with h | h
      · exact Or.inr ⟨t, List.mem_cons_self _ _, h⟩
      · rcases List.mem_cons.mp h with h | h
        · exact Or.inl h
        · rcases ih h with h2 | ⟨t2, ht2, hc2⟩
          · exact Or.inl h2
          · exact Or.inr ⟨t2, List.mem_cons_of_mem _ ht2, hc2⟩

theorem lowerT_fix : ∀ {m : Txt}, (∀ c ∈ m, c.toLower = c) → lowerT m = m := by
  intro m
  induction m with
  | nil => intro h; rfl
  | cons c cs ih =>
    intro h
    show c.toLower :: lowerT cs = c :: cs
    rw [h c (List.mem_cons_self _ _),
      ih (fun d hd => h d (List.mem_cons_of_mem _ hd))]

theorem isTame_toLower {c : Char} (h : isTame c = true) : c.toLower = c := by
  simp only [isTame, Bool.or_eq_true, Bool.and_eq_true,
    decide_eq_true_eq] at h
  have hn : ¬(c.toNat ≥ 65 ∧ c.toNat ≤ 90) := by omega
  simp [Char.toLower, hn]

theorem isTame_asciiWord {c : Char} (h : isTame c = true) :
    isAsciiWord c = true := by
  simp only [isTame, Bool.or_eq_true, Bool.and_eq_true,
    decide_eq_true_eq] at h
  simp only [isAsciiWord, Bool.or_eq_true, Bool.and_eq_true,
    decide_eq_true_eq]
  omega

theorem isTame_pyWord {c : Char} (h : isTame c = true) :
    isPyWord c = true := by
  simp [isPyWord, isTame_asciiWord h]

theorem isTame_lt128 {c : Char} (h : isTame c = true) : c.toNat < 128 := by
  simp only [isTame, Bool.or_eq_true, Bool.and_eq_true,
    decide_eq_true_eq] at h
  omega

/-! Facts about the concrete mapping table, checked by evaluation. -/

theorem tbl_words_keep :
    ∀ kv ∈ tagMapL, ∀ w ∈ pySplitWs kv.2, keepWord w = true := by decide

theorem tbl_keys_ascii :
    ∀ kv ∈ tagMapL, (∀ c ∈ kv.1, c.toNat < 128) →
      (kv.1 = ("miku").data ∧ kv.2 = ("hatsune_miku").data) ∨
      (kv.1 = ("teto").data ∧ kv.2 = ("kasane_teto").data) := by decide

theorem tbl_miku_mem : (("miku").data, ("hatsune_miku").data) ∈ tagMapL := by
  decide

theorem tbl_teto_mem : (("teto").data, ("kasane_teto").data) ∈ tagMapL := by
  decide

theorem tbl_split_hatsune :
    pySplitWs (("hatsune_miku").data) = [("hatsune_miku").data] := by decide

theorem tbl_split_kasane :
    pySplitWs (("kasane_teto").data) = [("kasane_teto").data] := by decide

theorem tbl_only_miku :
    ∀ kv ∈ tagMapL, ∀ w ∈ pySplitWs kv.2,
      liSub (("miku").data) w = true → w = ("hatsune_miku").data := by decide

theorem tbl_only_teto :
    ∀ kv ∈ tagMapL, ∀ w ∈ pySplitWs kv.2,
      liSub (("teto").data) w = true → w = ("kasane_teto").data := by decide

theorem extractList_keep (x : Txt) :
    ∀ t ∈ extractList x, keepWord t = true := by
  intro t ht
  unfold extractList at ht
  split at ht
  · simp at ht
  · rcases List.mem_append.mp ht with h | h
    · rcases mem_concatMap.mp h with ⟨kv, hkv, hin⟩
      by_cases hc : liSub kv.1 (lowerT x) = true
      · rw [if_pos hc] at hin
        exact tbl_words_keep kv hkv t hin
      · rw [if_neg hc] at hin
        simp at hin
    · exact List.of_mem_filter h

/-- Closure of the extracted tag set under an all-ASCII mapping key: if such
a key (miku or teto) occurs in the joined output, its mapped tag was already
extracted from the original text. -/
theorem asciiKey_closure (x : Txt) (l : List Txt) (k w0 : Txt)
    (hkne : k ≠ []) (hknosp : ' ' ∉ k)
    (hmemtbl : (k, w0) ∈ tagMapL) (hw0self : w0 ∈ pySplitWs w0)
    (honly : ∀ kv ∈ tagMapL, ∀ w ∈ pySplitWs kv.2,
      liSub k w = true → w = w0)
    (hl : ∀ t ∈ l, t ∈ extractList x)
    (hsub : SubSeg k (joinSp l)) :
    w0 ∈ extractList x := by
  obtain ⟨t, htl, hst⟩ := subSeg_joinSp hknosp hkne l hsub
  have htx := hl t htl
  unfold extractList at htx ⊢
  by_cases hxe : x.isEmpty = true
  · rw [if_pos hxe] at htx
    simp at htx
  · rw [if_neg hxe] at htx ⊢
    rcases List.mem_append.mp htx with h | h
    · rcases mem_concatMap.mp h with ⟨kv, hkv, hin⟩
      by_cases hc : liSub kv.1 (lowerT x) = true
      · rw [if_pos hc] at hin
        have ht0 : t = w0 := honly kv hkv t hin (liSub_iff.mpr hst)
        exact ht0 ▸ htx
      · rw [if_neg hc] at hin
        simp at hin
    · have h1 := List.mem_of_mem_filter h
      unfold pyFindall at h1
      have h2 := List.mem_of_mem_filter h1
      have hsx : SubSeg k (lowerT x) :=
        subSeg_trans hst (runsP_elem_subSeg _ _ _ h2)
      apply List.mem_append.mpr
      left
      refine mem_concatMap.mpr ⟨(k, w0), hmemtbl, ?_⟩
      rw [if_pos (liSub_iff.mpr hsx)]
      exact hw0self

/-- C4 amended: extract_tags is idempotent under re-tokenization of its own
output whenever every produced tag is made of word characters [a-z0-9_]:
for any enumeration of the output set, re-extracting the space-joined string
yields the same set. -/
theorem extract_tags_idempotent_tame (x : Txt)
    (H : ∀ t ∈ extractList x, t ≠ [] ∧ t.all isTame = true)
    (l : List Txt) (hset : l.toFinset = extractSet x) :
    extractSet (joinSp l) = extractSet x := by
  have hl : ∀ t ∈ l, t ∈ extractList x := by
    intro t ht
    have h2 : t ∈ l.toFinset := List.mem_toFinset.mpr ht
    rw [hset] at h2
    exact List.mem_toFinset.mp h2
  have hTame : ∀ t ∈ l, t ≠ [] ∧ ∀ c ∈ t, isTame c = true := by
    intro t ht
    obtain ⟨h1, h2⟩ := H t (hl t ht)
    exact ⟨h1, fun c hc => List.all_eq_true.mp h2 c hc⟩
  cases l with
  | nil =>
    have h0 : extractSet x = (∅ : Finset Txt) := by
      rw [← hset]
      rfl
    rw [h0]
    rfl
  | cons t0 ls =>
    have hchars : ∀ c ∈ joinSp (t0 :: ls), isTame c = true ∨ c = ' ' := by
      intro c hc
      rcases mem_joinSp hc with h | ⟨t, htl, hct⟩
      · exact Or.inr h
      · exact Or.inl ((hTame t htl).2 c hct)
    have hlow : lowerT (joinSp (t0 :: ls)) = joinSp (t0 :: ls) := by
      apply lowerT_fix
      intro c hc
      rcases hchars c hc with h | h
      · exact isTame_toLower h
      · rw [h]
        decide
    have hjne : (joinSp (t0 :: ls)).isEmpty = false := by
      have ht0 := (hTame t0 (List.mem_cons_self _ _)).1
      cases ls with
      | nil => simpa [joinSp, List.isEmpty_iff] using ht0
      | cons u us => simp [joinSp, List.isEmpty_iff, List.append_eq_nil]
    have hwords : pyFindall (joinSp (t0 :: ls)) = t0 :: ls := by
      unfold pyFindall
      rw [runsP_joinSp isPyWord (by decide) (t0 :: ls)
        (fun t ht => ⟨(hTame t ht).1,
          fun c hc => isTame_pyWord ((hTame t ht).2 c hc)⟩)]
      apply List.filter_eq_self.mpr
      intro t ht
      rw [List.all_eq_true]
      exact fun c hc => isTame_asciiWord ((hTame t ht).2 c hc)
    have hkeeps : (t0 :: ls).filter keepWord = t0 :: ls :=
      List.filter_eq_self.mpr (fun t ht => extractList_keep x t (hl t ht))
    have hEL : extractList (joinSp (t0 :: ls)) =
        concatMap
          (fun kv =>
            if liSub kv.1 (joinSp (t0 :: ls)) then pySplitWs kv.2 else [])
          tagMapL ++ (t0 :: ls) := by
      unfold extractList
      rw [if_neg (by simp [hjne]), hlow, hwords, hkeeps]
    show (extractList (joinSp (t0 :: ls))).toFinset = extractSet x
    rw [hEL, List.toFinset_append, hset]
    apply Finset.union_eq_right.mpr
    intro w hw
    rw [List.mem_toFinset] at hw
    rcases mem_concatMap.mp hw with ⟨kv, hkv, hin⟩
    by_cases hcond : liSub kv.1 (joinSp (t0 :: ls)) = true
    · rw [if_pos hcond] at hin
      by_cases hascii : ∀ c ∈ kv.1, c.toNat < 128
      · rcases tbl_keys_ascii kv hkv hascii with ⟨hk1, hk2⟩ | ⟨hk1, hk2⟩
        · rw [hk1] at hcond
          have hw0 := asciiKey_closure x (t0 :: ls) (("miku").data)
            (("hatsune_miku").data) (by decide) (by decide) tbl_miku_mem
            (by decide) tbl_only_miku hl (liSub_iff.mp hcond)
          rw [hk2, tbl_split_hatsune] at hin
          rcases List.mem_cons.mp hin with h | h
          · exact List.mem_toFinset.mpr (h ▸ hw0)
          · simp at h
        · rw [hk1] at hcond
          have hw0 := asciiKey_closure x (t0 :: ls) (("teto").data)
            (("kasane_teto").data) (by decide) (by decide) tbl_teto_mem
            (by decide) tbl_only_teto hl (liSub_iff.mp hcond)
          rw [hk2, tbl_split_kasane] at hin
          rcases List.mem_cons.mp hin with h | h
          · exact List.mem_toFinset.mpr (h ▸ hw0)
          · simp at h
      · exfalso
        push_neg at hascii
        obtain ⟨c, hck, hc128⟩ := hascii
        have hcj : c ∈ joinSp (t0 :: ls) :=
          subSeg_mem (liSub_iff.mp hcond) c hck
        rcases hchars c hcj with h | h
        · exact absurd (isTame_lt128 h) (by omega)
        · rw [h] at hc128
          revert hc128
          decide
    · rw [if_neg hcond] at hin
      simp at hin

/-- Witness for extract_tags_idempotent_tame: the output of extract_tags on
cat dog re-extracts to the same set. -/
theorem extract_tags_idempotent_tame_witness :
    extractSet (joinSp [("cat").data, ("dog").data]) =
      extractSet (("cat dog").data) :=
  extract_tags_idempotent_tame (("cat dog").data) (by decide)
    [("cat").data, ("dog").data] (by decide)

/-- C4 counterexample: extract_tags on the input 御姐 yields the single tag
onee-san, but re-extracting the joined output yields the different set
containing onee and san, so the round trip is not stable. -/
theorem extract_tags_idempotent_cex :
    extractSet (("御姐").data) = {("onee-san").data} ∧
      extractSet (joinSp [("onee-san").data]) ≠
        extractSet (("御姐").data) := by decide

end Safebooru
